import Mathlib

/-!
Shallow embedding of the robot controller (`robot.py`): telemetry wire-format
decoding, stream framing, angle normalization, and the control loops
(settle, turn-by-angle, forward-to-the-wall).

Numeric modelling choices:
* float values that only flow through comparisons and affine arithmetic
  (speeds, distances, velocities, thresholds) are modelled as rationals `ℚ`;
* the heading computations use `Real.sin` / `Real.cos` / `atan2`, so they are
  modelled over `ℝ`, with `atan2 y x = Complex.arg (x + y * I)`;
* IEEE-754 binary32 values travelling over the wire are modelled by their
  32-bit patterns (`Nat < 2^32`); `struct.pack`/`struct.unpack` of `<f` are
  mutually inverse byte-level bijections on those patterns, so round-trip
  claims are exactly claims about the byte packing.
-/

/-! ## Forward-approach speed law (`Robot.forward_to_the_wall`) -/

/-- `MAX_SPEED = 0.5` from `forward_to_the_wall`. -/
def MAX_SPEED : ℚ := 0.5

/-- `TARGET_STOP = 0.4` from `forward_to_the_wall`. -/
def TARGET_STOP : ℚ := 0.4

/-- `[r for r in ranges if 0.1 < r < 20.0]` — the lidar validity filter. -/
def validRanges (rs : List ℚ) : List ℚ :=
  rs.filter (fun r => decide ((0.1 : ℚ) < r) && decide (r < (20.0 : ℚ)))

/-- `min(valid_ranges) if valid_ranges else float('inf')`; `none` plays the
role of `+inf`. -/
def minDist (rs : List ℚ) : Option ℚ :=
  (validRanges rs).min?

/-- The per-iteration speed law of `forward_to_the_wall`, as a function of
`min_dist`. For `min_dist = +inf` (`none`) both tests `inf ≤ 0.4` and
`inf < 1.0` are false, so the `else` branch gives `MAX_SPEED`. -/
def speedOf : Option ℚ → ℚ
  | none => MAX_SPEED
  | some d =>
    if d ≤ TARGET_STOP then 0
    else if d < 1 then max 0 (MAX_SPEED * (d - TARGET_STOP) / (1 - TARGET_STOP))
    else MAX_SPEED

/-- `min_dist <= TARGET_STOP` as evaluated by the loop (false at `+inf`). -/
def distLEb (d : Option ℚ) (c : ℚ) : Bool :=
  match d with
  | none => false
  | some x => decide (x ≤ c)

/-- Events emitted by a maneuver: a velocity command datagram or a sleep. -/
inductive Ev where
  | cmd : ℚ → ℚ → Ev
  | sleep : ℚ → Ev
deriving DecidableEq, Repr

/-- Whether an event is a command datagram. -/
def Ev.isCmd : Ev → Bool
  | .cmd _ _ => true
  | .sleep _ => false

/-- The main approach loop of `forward_to_the_wall`, driven by the (finite
prefix of the) stream of lidar sweeps the telemetry delivers: each iteration
sends `(speed, 0)`, breaks when `min_dist ≤ TARGET_STOP` (after sending),
else sleeps `0.01` and repeats. `none` when the given frames never trigger
the stop condition (the real loop would keep blocking on telemetry). -/
def approachLoop : List (List ℚ) → Option (List Ev)
  | [] => none
  | rs :: rest =>
    let d := minDist rs
    let s := speedOf d
    if distLEb d TARGET_STOP then some [Ev.cmd s 0]
    else (approachLoop rest).map (fun evs => Ev.cmd s 0 :: Ev.sleep 0.01 :: evs)

/-- The braking burst after the loop: `for _ in range(30): send (0,0); sleep
0.01`, then `sleep(0.3)`. -/
def brakeBurst : List Ev :=
  (List.replicate 30 [Ev.cmd 0 0, Ev.sleep 0.01]).flatten ++ [Ev.sleep 0.3]

/-- Full event trace of `Robot.forward_to_the_wall`. -/
def forward_to_the_wall (frames : List (List ℚ)) : Option (List Ev) :=
  (approachLoop frames).map (· ++ brakeBurst)

theorem interpAux (d : ℚ) :
    MAX_SPEED * (d - TARGET_STOP) / (1 - TARGET_STOP) = 5/6 * d - 1/3 := by
  simp only [MAX_SPEED, TARGET_STOP]
  ring

theorem speedOf_interp (d : ℚ) (h1 : TARGET_STOP < d) (h2 : d < 1) :
    speedOf (some d) = 5/6 * d - 1/3 := by
  simp only [TARGET_STOP] at h1
  have hmax : (0 : ℚ) ≤ 5/6 * d - 1/3 := by norm_num at h1 ⊢; linarith
  rw [speedOf, if_neg (by simp only [TARGET_STOP]; exact not_le.mpr h1), if_pos h2,
    interpAux, max_eq_right hmax]

theorem speedOf_nonneg (d : Option ℚ) : 0 ≤ speedOf d := by
  match d with
  | none => simp only [speedOf, MAX_SPEED]; norm_num
  | some x =>
    simp only [speedOf]
    split
    · exact le_refl 0
    · split
      · exact le_max_left 0 _
      · simp only [MAX_SPEED]; norm_num

theorem speedOf_le_max (d : Option ℚ) : speedOf d ≤ MAX_SPEED := by
  match d with
  | none => exact le_refl _
  | some x =>
    simp only [speedOf]
    split
    · simp only [MAX_SPEED]; norm_num
    · split
      · rename_i h1 h2
        rw [not_le] at h1
        simp only [TARGET_STOP] at h1
        rw [interpAux]
        refine max_le ?_ ?_
        · simp only [MAX_SPEED]; norm_num
        · simp only [MAX_SPEED]; norm_num; linarith
      · exact le_refl _

/-- C1: the forward speed law of `forward_to_the_wall`: `0` at or below the
stop distance, `MAX_SPEED` at or above the ramp start (including `+inf`),
the clamped linear interpolation in between, and `0.25` at `min_dist = 0.7`. -/
theorem approach_speed_law (d : ℚ) :
    (d ≤ 0.4 → speedOf (some d) = 0) ∧
    (1 ≤ d → speedOf (some d) = 0.5) ∧
    (0.4 < d → d < 1 → speedOf (some d) = 0.5 * (d - 0.4) / (1 - 0.4)) ∧
    speedOf none = 0.5 ∧
    speedOf (some 0.7) = 0.25 := by
  refine ⟨fun h => ?_, fun h => ?_, fun h1 h2 => ?_, ?_, ?_⟩
  · rw [speedOf, if_pos (by rw [TARGET_STOP]; exact_mod_cast h)]
  · rw [speedOf, if_neg (by rw [TARGET_STOP]; norm_num; linarith),
      if_neg (by linarith), MAX_SPEED]
  · rw [speedOf_interp d (by rw [TARGET_STOP]; exact_mod_cast h1) h2]
    norm_num
    ring
  · rw [speedOf, MAX_SPEED]
  · rw [speedOf_interp 0.7 (by rw [TARGET_STOP]; norm_num) (by norm_num)]
    norm_num

/-- Witness for `approach_speed_law` at concrete distances. -/
theorem approach_speed_law_witness :
    speedOf (some 0.3) = 0 ∧ speedOf (some 2) = 0.5 ∧
    speedOf (some 0.7) = 0.5 * ((0.7 : ℚ) - 0.4) / (1 - 0.4) :=
  ⟨(approach_speed_law 0.3).1 (by norm_num),
   ((approach_speed_law 2).2.1 (by norm_num)),
   ((approach_speed_law 0.7).2.2.1 (by norm_num) (by norm_num))⟩

/-- The order on distances with `none` as `+inf`: `some x ≤ some y ↔ x ≤ y`,
everything is `≤ none`, and `none ≤ some y` fails. -/
def distLE (a b : Option ℚ) : Prop :=
  match a, b with
  | _, none => True
  | none, some _ => False
  | some x, some y => x ≤ y

/-- C9: the speed law is non-decreasing in `min_dist` over the whole domain,
`+inf` included. -/
theorem approach_speed_mono (a b : Option ℚ) (hab : distLE a b) :
    speedOf a ≤ speedOf b := by
  match a, b with
  | _, none => exact speedOf_le_max _
  | none, some y => exact absurd hab id
  | some x, some y =>
    have hxy : x ≤ y := hab
    by_cases hx1 : x ≤ TARGET_STOP
    · rw [speedOf, if_pos hx1]
      exact speedOf_nonneg _
    · by_cases hx2 : x < 1
      · rw [speedOf_interp x (not_le.mp hx1) hx2]
        by_cases hy2 : y < 1
        · rw [speedOf_interp y (lt_of_lt_of_le (not_le.mp hx1) hxy) hy2]
          linarith
        · have : speedOf (some y) = MAX_SPEED := by
            rw [speedOf, if_neg, if_neg hy2]
            simp only [TARGET_STOP] at hx1 ⊢
            rw [not_le] at hx1 ⊢
            linarith
          rw [this]
          have := speedOf_le_max (some x)
          rwa [speedOf_interp x (not_le.mp hx1) hx2] at this
      · have hy2 : ¬ y < 1 := fun h => hx2 (lt_of_le_of_lt hxy h)
        have hy1 : ¬ y ≤ TARGET_STOP := by
          simp only [TARGET_STOP] at hx1 ⊢
          rw [not_le] at hx1 ⊢
          linarith
        rw [speedOf, if_neg hx1, if_neg hx2, speedOf, if_neg hy1, if_neg hy2]

/-- Witness for `approach_speed_mono`: `0.5 < +inf`. -/
theorem approach_speed_mono_witness :
    speedOf (some 0.5) ≤ speedOf none :=
  approach_speed_mono (some 0.5) none trivial

theorem mem_brakeBurst (e : Ev) (he : e ∈ brakeBurst) :
    e = Ev.cmd 0 0 ∨ e = Ev.sleep 0.01 ∨ e = Ev.sleep 0.3 := by
  rw [brakeBurst, List.mem_append] at he
  rcases he with h | h
  · rw [List.mem_flatten] at h
    obtain ⟨l, hl, hel⟩ := h
    rw [List.eq_of_mem_replicate hl] at hel
    rcases hel with _ | ⟨_, _ | ⟨_, h⟩⟩
    · left; rfl
    · right; left; rfl
    · exact absurd h (List.not_mem_nil e)
  · right; right
    rcases h with _ | ⟨_, h⟩
    · rfl
    · exact absurd h (List.not_mem_nil e)

theorem approachLoop_cmds (frames : List (List ℚ)) (evs : List Ev)
    (h : approachLoop frames = some evs) :
    ∀ v w, Ev.cmd v w ∈ evs → w = 0 ∧ 0 ≤ v ∧ v ≤ MAX_SPEED := by
  induction frames generalizing evs with
  | nil => simp [approachLoop] at h
  | cons rs rest ih =>
    simp only [approachLoop] at h
    split at h
    · obtain rfl : [Ev.cmd (speedOf (minDist rs)) 0] = evs := Option.some.inj h
      intro v w hm
      rcases hm with _ | ⟨_, hm⟩
      · exact ⟨rfl, speedOf_nonneg _, speedOf_le_max _⟩
      · exact absurd hm (List.not_mem_nil _)
    · cases hrec : approachLoop rest with
      | none => rw [hrec] at h; exact absurd h (by simp)
      | some evs' =>
        rw [hrec, Option.map_some'] at h
        obtain rfl := Option.some.inj h
        intro v w hm
        rcases hm with _ | ⟨_, hm⟩
        · exact ⟨rfl, speedOf_nonneg _, speedOf_le_max _⟩
        · rcases hm with _ | ⟨_, hm⟩
          exact ih evs' hrec v w hm

/-- C10: every command in a completed `forward_to_the_wall` trace — in the
approach loop and in the braking burst alike — has angular speed `0` and
linear speed in `[0, 0.5]`; the trace ends with the braking burst, whose
commands are exactly 30 zero commands and whose final event is the fixed
`0.3 s` settle wait. -/
theorem approach_trace_invariant (frames : List (List ℚ)) (evs : List Ev)
    (h : forward_to_the_wall frames = some evs) :
    (∀ v w, Ev.cmd v w ∈ evs → w = 0 ∧ 0 ≤ v ∧ v ≤ 0.5) ∧
    (∃ main, evs = main ++ brakeBurst) ∧
    brakeBurst.filter Ev.isCmd = List.replicate 30 (Ev.cmd 0 0) ∧
    brakeBurst.getLast? = some (Ev.sleep 0.3) := by
  rw [forward_to_the_wall] at h
  cases hl : approachLoop frames with
  | none => rw [hl] at h; exact absurd h (by simp)
  | some main =>
    rw [hl, Option.map_some'] at h
    obtain rfl := Option.some.inj h
    refine ⟨?_, ⟨main, rfl⟩, rfl, rfl⟩
    intro v w hm
    rw [List.mem_append] at hm
    rcases hm with hm | hm
    · have := approachLoop_cmds frames main hl v w hm
      rwa [MAX_SPEED] at this
    · rcases mem_brakeBurst _ hm with h0 | h0 | h0
      · cases h0; exact ⟨rfl, le_refl 0, by norm_num⟩
      · cases h0
      · cases h0

/-- Witness for `approach_trace_invariant`: a single sweep whose minimum
valid range `0.39` is already below the stop distance. -/
theorem approach_trace_invariant_witness :
    (∀ v w, Ev.cmd v w ∈ [Ev.cmd 0 0] ++ brakeBurst → w = 0 ∧ 0 ≤ v ∧ v ≤ 0.5) ∧
    (∃ main, [Ev.cmd 0 0] ++ brakeBurst = main ++ brakeBurst) ∧
    brakeBurst.filter Ev.isCmd = List.replicate 30 (Ev.cmd 0 0) ∧
    brakeBurst.getLast? = some (Ev.sleep 0.3) :=
  approach_trace_invariant [[0.39, 5.0, 5.0]] ([Ev.cmd 0 0] ++ brakeBurst) (by
    norm_num [forward_to_the_wall, approachLoop, minDist, validRanges, distLEb,
      speedOf, TARGET_STOP, List.min?, min_def])
/-! ## Settle phase of `Robot.turn_by_angle2` -/

/-- The convergence test of the settle phase:
`abs(vx) < 0.01 and abs(vy) < 0.01 and abs(vth) < 0.01`. -/
def belowEps (v : ℚ × ℚ × ℚ) : Prop :=
  |v.1| < 0.01 ∧ |v.2.1| < 0.01 ∧ |v.2.2| < 0.01

instance (v : ℚ × ℚ × ℚ) : Decidable (belowEps v) :=
  inferInstanceAs (Decidable (_ ∧ _ ∧ _))

/-- The settle loop, driven by the stream of velocity triples the telemetry
delivers: each iteration reads a frame, sends a zero command, and breaks when
all three components are below epsilon. Returns the commands sent, `none`
when the given frames never satisfy the test. -/
def settleLoop : List (ℚ × ℚ × ℚ) → Option (List (ℚ × ℚ))
  | [] => none
  | v :: rest =>
    if belowEps v then some [(0, 0)]
    else (settleLoop rest).map (fun cs => (0, 0) :: cs)

/-- C7: the settle phase sends only zero commands, returns exactly at the
first frame whose three velocity components are all below `0.01`, and on the
synthetic sequence `[0.02, 0.02, 0.005]` (all axes) it runs two full
iterations before terminating on the third sample. -/
theorem settle_behavior :
    (∀ (vs : List (ℚ × ℚ × ℚ)) (cs : List (ℚ × ℚ)), settleLoop vs = some cs →
      (∀ c ∈ cs, c = (0, 0)) ∧
      ∃ k, cs.length = k + 1 ∧ k < vs.length ∧
        (∀ i < k, ¬ belowEps (vs.getD i (0, 0, 0))) ∧
        belowEps (vs.getD k (0, 0, 0))) ∧
    settleLoop [(0.02, 0.02, 0.02), (0.02, 0.02, 0.02), (0.005, 0.005, 0.005)] =
      some [(0, 0), (0, 0), (0, 0)] := by
  constructor
  · intro vs
    induction vs with
    | nil => intro cs h; exact absurd h (by simp [settleLoop])
    | cons v rest ih =>
      intro cs h
      rw [settleLoop] at h
      by_cases hv : belowEps v
      · rw [if_pos hv] at h
        obtain rfl := (Option.some.inj h).symm
        constructor
        · intro c hc
          rcases hc with _ | ⟨_, hc⟩
          · rfl
          · exact absurd hc (List.not_mem_nil c)
        · exact ⟨0, rfl, by simp, fun i hi => absurd hi (Nat.not_lt_zero i), hv⟩
      · rw [if_neg hv] at h
        cases hrec : settleLoop rest with
        | none => rw [hrec] at h; exact absurd h (by simp)
        | some cs' =>
          rw [hrec, Option.map_some'] at h
          obtain rfl := (Option.some.inj h).symm
          obtain ⟨hzero, k, hlen, hk, hbefore, hat⟩ := ih cs' hrec
          refine ⟨?_, k + 1, by simp [hlen], Nat.succ_lt_succ hk, ?_, hat⟩
          · intro c hc
            rcases hc with _ | ⟨_, hc⟩
            · rfl
            · exact hzero c hc
          · intro i hi
            match i with
            | 0 => exact hv
            | j + 1 => exact hbefore j (Nat.lt_of_succ_lt_succ hi)
  · norm_num [settleLoop, belowEps, abs_of_pos]

/-- Witness for `settle_behavior` on the synthetic sequence of the spec. -/
theorem settle_behavior_witness :
    (∀ c ∈ [((0 : ℚ), (0 : ℚ)), (0, 0), (0, 0)], c = (0, 0)) ∧
    ∃ k, ([((0 : ℚ), (0 : ℚ)), (0, 0), (0, 0)]).length = k + 1 ∧
      k < ([((0.02 : ℚ), (0.02 : ℚ), (0.02 : ℚ)), (0.02, 0.02, 0.02),
            (0.005, 0.005, 0.005)]).length ∧
      (∀ i < k, ¬ belowEps (([((0.02 : ℚ), (0.02 : ℚ), (0.02 : ℚ)), (0.02, 0.02, 0.02),
            (0.005, 0.005, 0.005)]).getD i (0, 0, 0))) ∧
      belowEps (([((0.02 : ℚ), (0.02 : ℚ), (0.02 : ℚ)), (0.02, 0.02, 0.02),
            (0.005, 0.005, 0.005)]).getD k (0, 0, 0)) :=
  settle_behavior.1 [(0.02, 0.02, 0.02), (0.02, 0.02, 0.02), (0.005, 0.005, 0.005)]
    [(0, 0), (0, 0), (0, 0)] settle_behavior.2

/-! ## Telemetry payload decoding (`TelemetryClient.recv_telemetry`)

Bytes are `Nat` values (well-formed when `< 256`); 32-bit little-endian
quantities — `<I` counts and the bit patterns of `<f` float32 fields alike —
are `Nat` values `< 2^32`. -/

/-- The magic signature `b"WBTG"`. -/
def MAGIC : List Nat := [87, 66, 84, 71]

/-- Python slice `data[a:b]` (for `a ≤ b`). -/
def pySlice (data : List Nat) (a b : Nat) : List Nat :=
  (data.drop a).take (b - a)

/-- Group a byte string into little-endian 32-bit words, 4 bytes each;
`none` when the length is not a multiple of 4. -/
def bytesToWords : List Nat → Option (List Nat)
  | [] => some []
  | b0 :: b1 :: b2 :: b3 :: rest =>
    (bytesToWords rest).map (fun ws => (b0 + 256 * (b1 + 256 * (b2 + 256 * b3))) :: ws)
  | _ => none

/-- `struct.unpack` for a homogeneous little-endian 32-bit format of `m`
items (`<9f`, `<I`, `<{n}f`): requires the buffer length to be exactly
`4 * m`, else `struct.error` (`none`). -/
def unpackF (m : Nat) (bytes : List Nat) : Option (List Nat) :=
  if bytes.length = 4 * m then bytesToWords bytes else none

/-- A decoded telemetry frame; each scalar is a float32 bit pattern. -/
structure Frame where
  pose : Nat × Nat × Nat
  velocity : Nat × Nat × Nat
  angular_velocity : Nat × Nat × Nat
  lidar_ranges : List Nat
deriving DecidableEq, Repr

/-- The error taxonomy of the telemetry channel: `ValueError` on a bad
signature, `struct.error` on a short buffer, `ConnectionError` from
`recv_all`. -/
inductive TelemetryError where
  | signatureError : TelemetryError
  | structError : TelemetryError
  | connClosed : TelemetryError
deriving DecidableEq, Repr

/-- Payload decoding of `recv_telemetry` (the part common to UDP and TCP,
lines 70–85): check the `WBTG` prefix, unpack 9 float32 fields from
`data[4:40]`, the count `n` from `data[40:44]`, and — when `n > 0` —
`n` float32 range samples from `data[44:44+4n]`. -/
def recv_telemetry (data : List Nat) : Except TelemetryError Frame :=
  if MAGIC.isPrefixOf data then
    match unpackF 9 (pySlice data 4 40) with
    | none => .error .structError
    | some ws =>
      match unpackF 1 (pySlice data 40 44) with
      | none => .error .structError
      | some ns =>
        let n := ns.headD 0
        if 0 < n then
          match unpackF n (pySlice data 44 (44 + 4 * n)) with
          | none => .error .structError
          | some rs =>
            .ok ⟨(ws.getD 0 0, ws.getD 1 0, ws.getD 2 0),
                 (ws.getD 3 0, ws.getD 4 0, ws.getD 5 0),
                 (ws.getD 6 0, ws.getD 7 0, ws.getD 8 0), rs⟩
        else
          .ok ⟨(ws.getD 0 0, ws.getD 1 0, ws.getD 2 0),
               (ws.getD 3 0, ws.getD 4 0, ws.getD 5 0),
               (ws.getD 6 0, ws.getD 7 0, ws.getD 8 0), []⟩
  else .error .signatureError

/-- `struct.pack("<I", w)` / the byte image of one little-endian 32-bit
word. -/
def pack32 (w : Nat) : List Nat :=
  [w % 256, w / 256 % 256, w / 65536 % 256, w / 16777216 % 256]

/-- The encoder for the telemetry wire format of §6: magic tag, 9 float32
fields, the `uint32` count, then the range samples. -/
def encodeFrame (f : Frame) : List Nat :=
  MAGIC ++
  ([f.pose.1, f.pose.2.1, f.pose.2.2,
    f.velocity.1, f.velocity.2.1, f.velocity.2.2,
    f.angular_velocity.1, f.angular_velocity.2.1,
    f.angular_velocity.2.2].flatMap pack32) ++
  pack32 f.lidar_ranges.length ++
  f.lidar_ranges.flatMap pack32

/-- Well-formedness of a frame: every 32-bit quantity fits in 32 bits. -/
def Frame.WF (f : Frame) : Prop :=
  f.pose.1 < 4294967296 ∧ f.pose.2.1 < 4294967296 ∧ f.pose.2.2 < 4294967296 ∧
  f.velocity.1 < 4294967296 ∧ f.velocity.2.1 < 4294967296 ∧
  f.velocity.2.2 < 4294967296 ∧
  f.angular_velocity.1 < 4294967296 ∧ f.angular_velocity.2.1 < 4294967296 ∧
  f.angular_velocity.2.2 < 4294967296 ∧
  f.lidar_ranges.length < 4294967296 ∧
  ∀ r ∈ f.lidar_ranges, r < 4294967296

theorem pack32_length (w : Nat) : (pack32 w).length = 4 := rfl

theorem bytesToWords_pack32 (w : Nat) (hw : w < 4294967296) (l : List Nat) :
    bytesToWords (pack32 w ++ l) = (bytesToWords l).map (fun ws => w :: ws) := by
  have hcomb : w % 256 + 256 * (w / 256 % 256 + 256 * (w / 65536 % 256 +
      256 * (w / 16777216 % 256))) = w := by omega
  simp only [pack32, List.cons_append, List.nil_append, bytesToWords, hcomb,
    List.append_eq, List.nil_append]

theorem bytesToWords_flatMap (ws : List Nat) (hws : ∀ w ∈ ws, w < 4294967296) :
    bytesToWords (ws.flatMap pack32) = some ws := by
  induction ws with
  | nil => rfl
  | cons w rest ih =>
    rw [List.flatMap_cons, bytesToWords_pack32 w (hws w (List.mem_cons_self w rest)),
      ih (fun x hx => hws x (List.mem_cons_of_mem w hx)), Option.map_some']

theorem flatMap_pack32_length (ws : List Nat) :
    (ws.flatMap pack32).length = 4 * ws.length := by
  induction ws with
  | nil => rfl
  | cons w rest ih => simp [List.flatMap_cons, ih, pack32_length]; omega

theorem unpackF_flatMap (ws : List Nat) (hws : ∀ w ∈ ws, w < 4294967296) :
    unpackF ws.length (ws.flatMap pack32) = some ws := by
  rw [unpackF, if_pos (flatMap_pack32_length ws), bytesToWords_flatMap ws hws]

theorem bytesToWords_four (bs : List Nat) (h : bs.length = 4) :
    ∃ w, bytesToWords bs = some [w] := by
  rcases bs with _ | ⟨b0, bs⟩; · simp at h
  rcases bs with _ | ⟨b1, bs⟩; · simp at h
  rcases bs with _ | ⟨b2, bs⟩; · simp at h
  rcases bs with _ | ⟨b3, bs⟩; · simp at h
  rcases bs with _ | ⟨b4, bs⟩
  · exact ⟨_, rfl⟩
  · exfalso
    simp only [List.length_cons] at h
    omega

theorem pySlice_length (data : List Nat) (a b : Nat) :
    (pySlice data a b).length = min (b - a) (data.length - a) := by
  simp [pySlice]

/-- C4: decoding a payload encoded per the wire format restores every field
of a well-formed frame — the 9 float32 fields and the whole range sweep —
whatever the sample count. -/
theorem recv_telemetry_roundtrip (f : Frame) (hf : f.WF) :
    recv_telemetry (encodeFrame f) = .ok f := by
  obtain ⟨⟨px, py, pth⟩, ⟨vx, vy, vth⟩, ⟨wx, wy, wz⟩, lr⟩ := f
  obtain ⟨h1, h2, h3, h4, h5, h6, h7, h8, h9, hlen, hr⟩ := hf
  have hnine : ∀ w ∈ [px, py, pth, vx, vy, vth, wx, wy, wz], w < 4294967296 := by
    intro w hw
    simp only [List.mem_cons, List.not_mem_nil, or_false] at hw
    rcases hw with rfl | rfl | rfl | rfl | rfl | rfl | rfl | rfl | rfl <;> assumption
  have hH36 : ([px, py, pth, vx, vy, vth, wx, wy, wz].flatMap pack32).length = 36 := by
    rw [flatMap_pack32_length]
    rfl
  have hdata1 : encodeFrame ⟨(px, py, pth), (vx, vy, vth), (wx, wy, wz), lr⟩ =
      MAGIC ++ ([px, py, pth, vx, vy, vth, wx, wy, wz].flatMap pack32 ++
        (pack32 lr.length ++ lr.flatMap pack32)) := by
    simp [encodeFrame, List.append_assoc]
  have hdata2 : encodeFrame ⟨(px, py, pth), (vx, vy, vth), (wx, wy, wz), lr⟩ =
      (MAGIC ++ [px, py, pth, vx, vy, vth, wx, wy, wz].flatMap pack32) ++
        (pack32 lr.length ++ lr.flatMap pack32) := by
    simp [encodeFrame, List.append_assoc]
  have hdata3 : encodeFrame ⟨(px, py, pth), (vx, vy, vth), (wx, wy, wz), lr⟩ =
      ((MAGIC ++ [px, py, pth, vx, vy, vth, wx, wy, wz].flatMap pack32) ++
        pack32 lr.length) ++ lr.flatMap pack32 := by
    simp [encodeFrame, List.append_assoc]
  have hprefix : MAGIC.isPrefixOf
      (encodeFrame ⟨(px, py, pth), (vx, vy, vth), (wx, wy, wz), lr⟩) = true := by
    rw [hdata1]
    exact List.isPrefixOf_iff_prefix.mpr (List.prefix_append _ _)
  have hs1 : pySlice (encodeFrame ⟨(px, py, pth), (vx, vy, vth), (wx, wy, wz), lr⟩)
      4 40 = [px, py, pth, vx, vy, vth, wx, wy, wz].flatMap pack32 := by
    rw [hdata1, pySlice, List.drop_left' (show MAGIC.length = 4 from rfl)]
    exact List.take_left' (by rw [hH36])
  have hs2 : pySlice (encodeFrame ⟨(px, py, pth), (vx, vy, vth), (wx, wy, wz), lr⟩)
      40 44 = pack32 lr.length := by
    rw [hdata2, pySlice, List.drop_left' (by rw [List.length_append, hH36]; rfl)]
    exact List.take_left' rfl
  have hs3 : pySlice (encodeFrame ⟨(px, py, pth), (vx, vy, vth), (wx, wy, wz), lr⟩)
      44 (44 + 4 * lr.length) = lr.flatMap pack32 := by
    rw [hdata3, pySlice,
      List.drop_left' (by rw [List.length_append, List.length_append, hH36, pack32_length]; rfl)]
    rw [show 44 + 4 * lr.length - 44 = 4 * lr.length from by omega]
    exact List.take_of_length_le (le_of_eq (flatMap_pack32_length lr))
  have hH : unpackF 9 ([px, py, pth, vx, vy, vth, wx, wy, wz].flatMap pack32) =
      some [px, py, pth, vx, vy, vth, wx, wy, wz] := by
    have := unpackF_flatMap [px, py, pth, vx, vy, vth, wx, wy, wz] hnine
    simpa using this
  have hC : unpackF 1 (pack32 lr.length) = some [lr.length] := by
    have := unpackF_flatMap [lr.length] (by
      intro w hw
      simp only [List.mem_cons, List.not_mem_nil, or_false] at hw
      rw [hw]; exact hlen)
    simpa using this
  by_cases hl0 : lr = []
  · subst hl0
    rw [recv_telemetry, if_pos hprefix, hs1, hH, hs2, hC]
    simp
  · have hpos : 0 < lr.length := List.length_pos.mpr hl0
    have hR : unpackF lr.length (lr.flatMap pack32) = some lr := unpackF_flatMap lr hr
    rw [recv_telemetry, if_pos hprefix, hs1, hH, hs2, hC]
    simp only [List.headD_cons]
    rw [if_pos hpos, hs3, hR]
    simp

/-- A frame with an empty sweep, for the `n = 0` round-trip instance. -/
def frame0 : Frame := ⟨(1, 2, 3), (4, 5, 6), (7, 8, 9), []⟩

/-- A frame with a full 360-sample sweep, for the `n = 360` instance
(`1065353216` is the float32 bit pattern of `1.0`). -/
def frame360 : Frame :=
  ⟨(10, 20, 30), (40, 50, 60), (70, 80, 90), List.replicate 360 1065353216⟩

set_option maxRecDepth 4000 in
/-- Witness for `recv_telemetry_roundtrip` at `n = 0` and `n = 360`. -/
theorem recv_telemetry_roundtrip_witness :
    recv_telemetry (encodeFrame frame0) = .ok frame0 ∧
    recv_telemetry (encodeFrame frame360) = .ok frame360 :=
  ⟨recv_telemetry_roundtrip frame0 (by unfold Frame.WF frame0; decide),
   recv_telemetry_roundtrip frame360 (by unfold Frame.WF frame360; decide)⟩

/-- C5: a payload that does not start with the magic tag is rejected with the
signature error, whatever the rest of the payload holds. -/
theorem recv_bad_signature (data : List Nat)
    (h : MAGIC.isPrefixOf data = false) :
    recv_telemetry data = .error .signatureError := by
  rw [recv_telemetry, if_neg (by simp [h])]

/-- Witness for `recv_bad_signature` on a concrete non-magic payload. -/
theorem recv_bad_signature_witness :
    recv_telemetry [1, 2, 3, 4, 5] = .error .signatureError :=
  recv_bad_signature [1, 2, 3, 4, 5] rfl

/-- The count field `n` a payload declares at bytes 40..44 (`0` when the
payload is too short to hold one). -/
def declaredCount (data : List Nat) : Nat :=
  ((unpackF 1 (pySlice data 40 44)).getD []).headD 0

/-- C8: a payload that starts with the magic tag but holds fewer than
`44 + 4 n` bytes for its declared count `n` is rejected with a decode
(`struct`) error — no truncated or padded sweep is returned. -/
theorem recv_short_payload (data : List Nat)
    (hm : MAGIC.isPrefixOf data = true)
    (hshort : data.length < 44 + 4 * declaredCount data) :
    recv_telemetry data = .error .structError := by
  by_cases h40 : 40 ≤ data.length
  · cases hH : unpackF 9 (pySlice data 4 40) with
    | none => rw [recv_telemetry, if_pos hm, hH]
    | some ws =>
      by_cases h44 : 44 ≤ data.length
      · have hcl : (pySlice data 40 44).length = 4 := by rw [pySlice_length]; omega
        obtain ⟨w, hw⟩ := bytesToWords_four _ hcl
        have hC : unpackF 1 (pySlice data 40 44) = some [w] := by
          rw [unpackF, if_pos (by omega), hw]
        have hdc : declaredCount data = w := by rw [declaredCount, hC]; rfl
        rw [hdc] at hshort
        have hpos : 0 < w := by omega
        have hrn : unpackF w (pySlice data 44 (44 + 4 * w)) = none := by
          rw [unpackF, if_neg]
          rw [pySlice_length]
          omega
        rw [recv_telemetry, if_pos hm, hH]
        simp only [hC, List.headD_cons]
        rw [if_pos hpos, hrn]
      · have hCn : unpackF 1 (pySlice data 40 44) = none := by
          rw [unpackF, if_neg]
          rw [pySlice_length]
          omega
        rw [recv_telemetry, if_pos hm, hH, hCn]
  · have hHn : unpackF 9 (pySlice data 4 40) = none := by
      rw [unpackF, if_neg]
      rw [pySlice_length]
      omega
    rw [recv_telemetry, if_pos hm, hHn]

/-- Witness for `recv_short_payload`: a payload declaring `n = 2` samples but
carrying only one sample's worth of bytes. -/
theorem recv_short_payload_witness :
    recv_telemetry (MAGIC ++ List.replicate 36 0 ++ [2, 0, 0, 0, 9, 9, 9, 9]) =
      .error .structError :=
  recv_short_payload (MAGIC ++ List.replicate 36 0 ++ [2, 0, 0, 0, 9, 9, 9, 9])
    (by decide) (by decide)

/-! ## Stream framing (`TelemetryClient.recv_all` and the TCP path of
`recv_telemetry`)

The connection is modelled as the list of byte chunks successive `recv`
calls deliver; an exhausted list (or an empty chunk) is the peer closing
the connection (a zero-byte read). A `recv(k)` that finds more than `k`
bytes in the head chunk returns only `k` of them and the remainder stays
queued, as with a kernel socket buffer. -/

/-- `recv_all(size)`: accumulate reads until `size` bytes are buffered, or
fail with `ConnectionError` on a zero-byte read. Returns the buffer and the
chunks left unconsumed. -/
def recv_all (size : Nat) (chunks : List (List Nat)) :
    Except Unit (List Nat × List (List Nat)) :=
  if size = 0 then .ok ([], chunks)
  else
    match chunks with
    | [] => .error ()
    | c :: rest =>
      if c.isEmpty then .error ()
      else if _h : size ≤ c.length then
        .ok (c.take size, if size < c.length then c.drop size :: rest else rest)
      else
        match recv_all (size - c.length) rest with
        | .error e => .error e
        | .ok (more, rem) => .ok (c ++ more, rem)

/-- The TCP branch of `recv_telemetry` (lines 62–68): read a 4-byte
little-endian length prefix with `recv_all`, read that many payload bytes
with `recv_all`, then decode the payload. -/
def recv_telemetry_tcp (chunks : List (List Nat)) : Except TelemetryError Frame :=
  match recv_all 4 chunks with
  | .error _ => .error .connClosed
  | .ok (sizeBytes, rest) =>
    match unpackF 1 sizeBytes with
    | none => .error .structError
    | some ns =>
      match recv_all (ns.headD 0) rest with
      | .error _ => .error .connClosed
      | .ok (data, _) => recv_telemetry data

theorem recv_all_ok_spec (size : Nat) (chunks : List (List Nat))
    (buf : List Nat) (rem : List (List Nat))
    (h : recv_all size chunks = .ok (buf, rem)) :
    buf.length = size ∧ buf ++ rem.flatten = chunks.flatten := by
  induction chunks generalizing size buf with
  | nil =>
    rw [recv_all] at h
    by_cases h0 : size = 0
    · rw [if_pos h0] at h
      obtain ⟨rfl, rfl⟩ := Prod.ext_iff.mp (Except.ok.inj h)
      subst h0
      simp
    · rw [if_neg h0] at h
      exact absurd h (by simp)
  | cons c rest ih =>
    rw [recv_all] at h
    by_cases h0 : size = 0
    · rw [if_pos h0] at h
      obtain ⟨rfl, rfl⟩ := Prod.ext_iff.mp (Except.ok.inj h)
      subst h0
      simp
    · rw [if_neg h0] at h
      by_cases hc : c.isEmpty = true
      · rw [if_pos hc] at h
        exact absurd h (by simp)
      · rw [if_neg hc] at h
        by_cases hle : size ≤ c.length
        · rw [dif_pos hle] at h
          obtain ⟨rfl, rfl⟩ := Prod.ext_iff.mp (Except.ok.inj h)
          refine ⟨by rw [List.length_take]; omega, ?_⟩
          by_cases hlt : size < c.length
          · rw [if_pos hlt]
            simp only [List.flatten_cons]
            rw [← List.append_assoc, List.take_append_drop]
          · rw [if_neg hlt]
            have hcs : size = c.length := by omega
            rw [hcs, List.take_length]
            simp
        · rw [dif_neg hle] at h
          cases hrec : recv_all (size - c.length) rest with
          | error e => rw [hrec] at h; exact absurd h (by simp)
          | ok p =>
            obtain ⟨more, rem'⟩ := p
            rw [hrec] at h
            obtain ⟨rfl, rfl⟩ := Prod.ext_iff.mp (Except.ok.inj h)
            obtain ⟨hl, hflat⟩ := ih (size - c.length) more hrec
            refine ⟨by rw [List.length_append, hl]; omega, ?_⟩
            simp only [List.flatten_cons, List.append_assoc, hflat]

theorem recv_all_short (size : Nat) (chunks : List (List Nat))
    (h : chunks.flatten.length < size) :
    recv_all size chunks = .error () := by
  induction chunks generalizing size with
  | nil =>
    simp only [List.flatten_nil, List.length_nil] at h
    rw [recv_all, if_neg (by omega)]
  | cons c rest ih =>
    simp only [List.flatten_cons, List.length_append] at h
    rw [recv_all, if_neg (by omega)]
    by_cases hc : c.isEmpty = true
    · rw [if_pos hc]
    · rw [if_neg hc, dif_neg (by omega), ih (size - c.length) (by omega)]

theorem recv_all_enough (size : Nat) (chunks : List (List Nat))
    (hne : ∀ c ∈ chunks, c ≠ [])
    (h : size ≤ chunks.flatten.length) :
    ∃ buf rem, recv_all size chunks = .ok (buf, rem) ∧ ∀ c ∈ rem, c ≠ [] := by
  induction chunks generalizing size with
  | nil =>
    simp only [List.flatten_nil, List.length_nil, Nat.le_zero] at h
    exact ⟨[], [], by rw [recv_all, if_pos h], by intro c hc; cases hc⟩
  | cons c rest ih =>
    by_cases h0 : size = 0
    · exact ⟨[], c :: rest, by rw [recv_all, if_pos h0], hne⟩
    · have hcne : ¬ c.isEmpty = true := by
        simp only [List.isEmpty_iff]
        exact hne c (List.mem_cons_self c rest)
      by_cases hle : size ≤ c.length
      · refine ⟨c.take size, _, by rw [recv_all, if_neg h0, if_neg hcne, dif_pos hle], ?_⟩
        by_cases hlt : size < c.length
        · rw [if_pos hlt]
          intro x hx
          rcases hx with _ | ⟨_, hx⟩
          · simp only [ne_eq, List.drop_eq_nil_iff]
            omega
          · exact hne x (List.mem_cons_of_mem c hx)
        · rw [if_neg hlt]
          intro x hx
          exact hne x (List.mem_cons_of_mem c hx)
      · simp only [List.flatten_cons, List.length_append] at h
        obtain ⟨buf, rem, hrec, hremne⟩ := ih (size - c.length)
          (fun x hx => hne x (List.mem_cons_of_mem c hx)) (by omega)
        exact ⟨c ++ buf, rem,
          by rw [recv_all, if_neg h0, if_neg hcne, dif_neg hle, hrec], hremne⟩

/-- C6: stream-mode framing. (i) A successful `recv_all size` returns exactly
`size` bytes, and they are exactly the next `size` bytes of the stream, in
order — so the TCP path reads exactly 4 prefix bytes and then exactly the
declared count. (ii) If the connection delivers fewer bytes than requested
before closing, `recv_all` fails with the connection error. (iii) For every
declared length `L`, a connection that closes after delivering `k < L`
payload bytes makes the TCP receive path fail with the connection-closed
error. -/
theorem stream_framing (L : Nat) (body : List Nat) (chunks : List (List Nat))
    (hL : L < 4294967296)
    (hne : ∀ c ∈ chunks, c ≠ [])
    (hstream : chunks.flatten = pack32 L ++ body)
    (hshort : body.length < L) :
    (∀ size cs buf rem, recv_all size cs = .ok (buf, rem) →
      buf.length = size ∧ buf ++ rem.flatten = cs.flatten) ∧
    (∀ size cs, (cs : List (List Nat)).flatten.length < size →
      recv_all size cs = .error ()) ∧
    recv_telemetry_tcp chunks = .error .connClosed := by
  refine ⟨fun size cs buf rem h => recv_all_ok_spec size cs buf rem h,
    fun size cs h => recv_all_short size cs h, ?_⟩
  have hlen : 4 ≤ chunks.flatten.length := by
    rw [hstream, List.length_append, pack32_length]
    omega
  obtain ⟨buf, rem, hok, hremne⟩ := recv_all_enough 4 chunks hne hlen
  obtain ⟨hbl, hbc⟩ := recv_all_ok_spec 4 chunks buf rem hok
  have hflat := hbc.trans hstream
  have h4 : (pack32 L).length = 4 := pack32_length L
  have hbufL : buf = pack32 L := by
    have := congrArg (List.take 4) hflat
    rwa [List.take_left' hbl, List.take_left' h4] at this
  have hremflat : rem.flatten = body := by
    have := congrArg (List.drop 4) hflat
    rwa [List.drop_left' hbl, List.drop_left' h4] at this
  subst hbufL
  have hup : unpackF 1 (pack32 L) = some [L] := by
    rw [unpackF, if_pos (pack32_length L)]
    have := bytesToWords_pack32 L hL []
    simpa using this
  have hfail : recv_all L rem = .error () := by
    apply recv_all_short
    rw [hremflat]
    exact hshort
  simp only [recv_telemetry_tcp, hok, hup, List.headD_cons, hfail]

/-- Witness for `stream_framing`: declared length 10, connection closes after
3 payload bytes. -/
theorem stream_framing_witness :
    (∀ size cs buf rem, recv_all size cs = .ok (buf, rem) →
      buf.length = size ∧ buf ++ rem.flatten = cs.flatten) ∧
    (∀ size cs, (cs : List (List Nat)).flatten.length < size →
      recv_all size cs = .error ()) ∧
    recv_telemetry_tcp [[10, 0], [0, 0, 1], [2, 3]] = .error .connClosed :=
  stream_framing 10 [1, 2, 3] [[10, 0], [0, 0, 1], [2, 3]]
    (by norm_num) (by decide) (by decide) (by norm_num)

/-! ## Angle normalization and the turn loop (`normalize_angle`,
`Robot.turn_by_angle2`) -/

open Real in
/-- `math.atan2(y, x)`: the argument of the point `(x, y)`. -/
noncomputable def atan2 (y x : ℝ) : ℝ :=
  Complex.arg (x + y * Complex.I)

open Real in
/-- `normalize_angle(angle) = atan2(sin(angle), cos(angle))`. -/
noncomputable def normalize_angle (angle : ℝ) : ℝ :=
  atan2 (sin angle) (cos angle)

theorem normalize_angle_eq_arg (a : ℝ) :
    normalize_angle a = Complex.arg (Complex.cos a + Complex.sin a * Complex.I) := by
  rw [normalize_angle, atan2, Complex.ofReal_cos, Complex.ofReal_sin]

theorem normalize_angle_zero : normalize_angle 0 = 0 := by
  rw [normalize_angle, Real.sin_zero, Real.cos_zero, atan2]
  simp [Complex.arg_one]

/-- C3: `normalize_angle` always lands in `(−π, π]` (in particular it never
returns `−π`), has period `2π`, and fixes `0`. -/
theorem normalize_angle_spec (a : ℝ) :
    normalize_angle a ∈ Set.Ioc (-Real.pi) Real.pi ∧
    normalize_angle (a + 2 * Real.pi) = normalize_angle a ∧
    normalize_angle 0 = 0 := by
  refine ⟨?_, ?_, ?_⟩
  · rw [normalize_angle_eq_arg]
    exact Complex.arg_mem_Ioc _
  · rw [normalize_angle, normalize_angle, Real.sin_add_two_pi, Real.cos_add_two_pi]
  · exact normalize_angle_zero

/-- The three-tier bang-bang angular command of `turn_by_angle2`:
`w = tier(|error|) * (1 if error > 0 else -1)`. -/
noncomputable def turnCmd (error : ℝ) : ℝ :=
  if |error| > 0.3 then 0.6 * (if error > 0 then 1 else -1)
  else if |error| > 0.1 then 0.3 * (if error > 0 then 1 else -1)
  else 0.12 * (if error > 0 then 1 else -1)

/-- The turn loop of `turn_by_angle2`, driven by the stream of headings the
telemetry delivers: each iteration recomputes
`error = normalize_angle(target - current)`, breaks (and sends a final zero
command) when `|error| < 0.08`, else sends `(0, turnCmd error)`. `none` when
the given headings never converge. -/
noncomputable def turnLoop (target : ℝ) : List ℝ → Option (List (ℝ × ℝ))
  | [] => none
  | th :: rest =>
    if |normalize_angle (target - th)| < 0.08 then some [(0, 0)]
    else (turnLoop target rest).map
      (fun cs => (0, turnCmd (normalize_angle (target - th))) :: cs)

/-- `Robot.turn_by_angle2` after the settle phase: capture `start_th`, set
`target = start_th + delta` (no upfront wrapping), and run the loop. -/
noncomputable def turn_by_angle2 (delta start_th : ℝ) (headings : List ℝ) :
    Option (List (ℝ × ℝ)) :=
  turnLoop (start_th + delta) headings

theorem turnCmd_spec (e : ℝ) (he : e ≠ 0) :
    |turnCmd e| = (if |e| > 0.3 then 0.6 else if |e| > 0.1 then 0.3 else 0.12) ∧
    (0 < e → 0 < turnCmd e) ∧ (e < 0 → turnCmd e < 0) := by
  rcases lt_or_gt_of_ne he with hneg | hpos
  · have hsign : (if e > 0 then (1 : ℝ) else -1) = -1 := if_neg (by linarith)
    rw [turnCmd, hsign]
    split
    · refine ⟨by rw [abs_of_nonpos] <;> norm_num, fun h => absurd h (by linarith), fun _ => by norm_num⟩
    · split
      · refine ⟨by rw [abs_of_nonpos] <;> norm_num, fun h => absurd h (by linarith), fun _ => by norm_num⟩
      · refine ⟨by rw [abs_of_nonpos] <;> norm_num, fun h => absurd h (by linarith), fun _ => by norm_num⟩
  · have hsign : (if e > 0 then (1 : ℝ) else -1) = 1 := if_pos hpos
    rw [turnCmd, hsign]
    split
    · refine ⟨by rw [abs_of_pos] <;> norm_num, fun _ => by norm_num, fun h => absurd h (by linarith)⟩
    · split
      · refine ⟨by rw [abs_of_pos] <;> norm_num, fun _ => by norm_num, fun h => absurd h (by linarith)⟩
      · refine ⟨by rw [abs_of_pos] <;> norm_num, fun _ => by norm_num, fun h => absurd h (by linarith)⟩

theorem turnLoop_spec (target : ℝ) (ths : List ℝ) (cs : List (ℝ × ℝ))
    (h : turnLoop target ths = some cs) :
    ∃ k, k < ths.length ∧ cs.length = k + 1 ∧
      (∀ i, i < k →
        ¬ |normalize_angle (target - ths.getD i 0)| < 0.08 ∧
        cs.getD i (1, 1) =
          (0, turnCmd (normalize_angle (target - ths.getD i 0)))) ∧
      |normalize_angle (target - ths.getD k 0)| < 0.08 ∧
      cs.getD k (1, 1) = (0, 0) := by
  induction ths generalizing cs with
  | nil => exact absurd h (by simp [turnLoop])
  | cons th rest ih =>
    rw [turnLoop] at h
    by_cases hconv : |normalize_angle (target - th)| < 0.08
    · rw [if_pos hconv] at h
      obtain rfl := (Option.some.inj h).symm
      exact ⟨0, by simp, rfl, fun i hi => absurd hi (Nat.not_lt_zero i), hconv, rfl⟩
    · rw [if_neg hconv] at h
      cases hrec : turnLoop target rest with
      | none => rw [hrec] at h; exact absurd h (by simp)
      | some cs' =>
        rw [hrec, Option.map_some'] at h
        obtain rfl := (Option.some.inj h).symm
        obtain ⟨k, hk, hlen, hbefore, hconv', hlast⟩ := ih cs' hrec
        refine ⟨k + 1, Nat.succ_lt_succ hk, by simp [hlen], ?_, ?_, ?_⟩
        · intro i hi
          match i with
          | 0 => exact ⟨hconv, rfl⟩
          | j + 1 =>
            exact hbefore j (Nat.lt_of_succ_lt_succ hi)
        · exact hconv'
        · exact hlast

/-- C2: in `turn_by_angle2`, with `target = start_heading + delta`, every
iteration before convergence has `|error| ≥ 0.08` and sends a command with
linear speed `0` whose angular magnitude follows the three-tier schedule on
`|error|` (`> 0.3 → 0.6`, `> 0.1 → 0.3`, else `0.12`) and whose sign equals
the sign of `error`; the loop exits at the first heading with
`|error| < 0.08` and then a final zero command is sent. -/
theorem turn_loop_behavior (delta start_th : ℝ) (ths : List ℝ)
    (cs : List (ℝ × ℝ)) (h : turn_by_angle2 delta start_th ths = some cs) :
    ∃ k, k < ths.length ∧ cs.length = k + 1 ∧
      (∀ i, i < k →
        ¬ |normalize_angle (start_th + delta - ths.getD i 0)| < 0.08 ∧
        (cs.getD i (1, 1)).1 = 0 ∧
        |(cs.getD i (1, 1)).2| =
          (if |normalize_angle (start_th + delta - ths.getD i 0)| > 0.3 then 0.6
           else if |normalize_angle (start_th + delta - ths.getD i 0)| > 0.1 then 0.3
           else 0.12) ∧
        (0 < normalize_angle (start_th + delta - ths.getD i 0) →
          0 < (cs.getD i (1, 1)).2) ∧
        (normalize_angle (start_th + delta - ths.getD i 0) < 0 →
          (cs.getD i (1, 1)).2 < 0)) ∧
      |normalize_angle (start_th + delta - ths.getD k 0)| < 0.08 ∧
      cs.getD k (1, 1) = (0, 0) := by
  obtain ⟨k, hk, hlen, hbefore, hconv, hlast⟩ := turnLoop_spec (start_th + delta) ths cs h
  refine ⟨k, hk, hlen, ?_, hconv, hlast⟩
  intro i hi
  obtain ⟨hni, hci⟩ := hbefore i hi
  have hne : normalize_angle (start_th + delta - ths.getD i 0) ≠ 0 := by
    intro h0
    rw [h0] at hni
    exact hni (by norm_num)
  obtain ⟨hmag, hpos, hneg⟩ := turnCmd_spec _ hne
  rw [hci]
  exact ⟨hni, rfl, hmag, hpos, hneg⟩

/-- Witness for `turn_loop_behavior`: `delta = 0` from heading `0`, already
converged — the loop sends the single final zero command. -/
theorem turn_loop_behavior_witness :
    ∃ k, k < ([(0 : ℝ)]).length ∧ ([((0 : ℝ), (0 : ℝ))]).length = k + 1 ∧
      (∀ i, i < k →
        ¬ |normalize_angle ((0 : ℝ) + 0 - ([(0 : ℝ)]).getD i 0)| < 0.08 ∧
        (([((0 : ℝ), (0 : ℝ))]).getD i (1, 1)).1 = 0 ∧
        |(([((0 : ℝ), (0 : ℝ))]).getD i (1, 1)).2| =
          (if |normalize_angle ((0 : ℝ) + 0 - ([(0 : ℝ)]).getD i 0)| > 0.3 then 0.6
           else if |normalize_angle ((0 : ℝ) + 0 - ([(0 : ℝ)]).getD i 0)| > 0.1 then 0.3
           else 0.12) ∧
        (0 < normalize_angle ((0 : ℝ) + 0 - ([(0 : ℝ)]).getD i 0) →
          0 < (([((0 : ℝ), (0 : ℝ))]).getD i (1, 1)).2) ∧
        (normalize_angle ((0 : ℝ) + 0 - ([(0 : ℝ)]).getD i 0) < 0 →
          (([((0 : ℝ), (0 : ℝ))]).getD i (1, 1)).2 < 0)) ∧
      |normalize_angle ((0 : ℝ) + 0 - ([(0 : ℝ)]).getD k 0)| < 0.08 ∧
      ([((0 : ℝ), (0 : ℝ))]).getD k (1, 1) = (0, 0) :=
  turn_loop_behavior 0 0 [0] [(0, 0)] (by
    rw [turn_by_angle2, turnLoop, if_pos]
    rw [show (0 : ℝ) + 0 - 0 = 0 from by ring, normalize_angle_zero]
    norm_num)
